import Mathlib

/-!
# LSB image steganography codec: shallow embedding and verification

This file embeds the image-steganography codec of `src/utils/steganography.ts`
(`encodeMessage`, `decodeMessage`, `extractTextFromBinary`) into Lean and
settles the specification claims about it.

Modelling conventions:
* A JS string is modelled as a `List Nat` of its UTF-16 code units
  (`charCodeAt` values).
* The RGBA pixel buffer (`ImageData.data`, a `Uint8ClampedArray`) is a
  `List Nat` of channel bytes; writes through `List.set` are no-ops out of
  range, matching typed-array semantics.
* The binary strings of the source (`"0"`/`"1"` characters) are `List Nat`
  with entries `0`/`1`.
* Promise `resolve`/`reject` become `Except`/`Option` results; the canvas
  plumbing around the codec is out of scope (spec §1).
-/

namespace Stego

set_option maxRecDepth 100000

/-- UTF-16 code units of the start sentinel string literal of the source. -/
def startMarker : List Nat := [60, 60, 83, 84, 65, 82, 84, 62, 62]

/-- UTF-16 code units of the end sentinel string literal of the source. -/
def endMarker : List Nat := [60, 60, 69, 78, 68, 62, 62]

/-- Digit accumulator for `Nat.toString 2` semantics (JS `n.toString(2)`):
most-significant-bit first, no leading zeros.  The first argument is fuel;
`n` itself is always enough fuel since the value halves each step. -/
def natBitsCore : Nat → Nat → List Nat → List Nat
  | 0, _, acc => acc
  | fuel + 1, n, acc => if n = 0 then acc else natBitsCore fuel (n / 2) (n % 2 :: acc)

/-- JS `n.toString(2)` as a bit list: `"0"` for zero, otherwise the binary
digits of `n` MSB-first with no leading zeros. -/
def natBits (n : Nat) : List Nat := if n = 0 then [0] else natBitsCore n n []

/-- JS `s.padStart(8, "0")`: left-pad with zeros up to length 8 (a longer
input is returned unchanged). -/
def padLeft8 (l : List Nat) : List Nat := List.replicate (8 - l.length) 0 ++ l

/-- Bit expansion of one character of the framed message:
`messageWithMarker.charCodeAt(i).toString(2).padStart(8, "0")`
(steganography.ts lines 42-45). -/
def charBits (c : Nat) : List Nat := padLeft8 (natBits c)

/-- `messageWithMarker` = `` `<<START>>${message}<<END>>` `` (line 38),
as a list of character codes. -/
def frameCodes (message : List Nat) : List Nat := startMarker ++ message ++ endMarker

/-- `binaryMessage` built by the loop of lines 41-47: the per-character bit
strings concatenated in character order. -/
def frameBits (message : List Nat) : List Nat := (frameCodes message).flatMap charBits

/-- One store of the embedding loop (line 70):
`data[dataIndex] = (data[dataIndex] & 0xfe) | bit`. -/
def setLsb (data : List Nat) (idx bit : Nat) : List Nat :=
  data.set idx ((data.getD idx 0 &&& 0xfe) ||| bit)

/-- Inner channel loop of `encodeMessage` (lines 64-76) for pixel `p`:
three channels, each consuming one message bit while any remain; `break`
once `messageBitIndex` reaches the message length.  Returns the updated
buffer and bit index. -/
def embedChanLoop (bits : List Nat) (p : Nat) : Nat → Nat → Nat → List Nat → List Nat × Nat
  | 0, _, bi, data => (data, bi)
  | fuel + 1, c, bi, data =>
    if bi < bits.length then
      embedChanLoop bits p fuel (c + 1) (bi + 1) (setLsb data (p * 4 + c) (bits.getD bi 0))
    else (data, bi)

/-- Outer pixel loop of `encodeMessage` (lines 62-81): iterate pixels,
run the channel loop, and `break` when all message bits are consumed.
`fuel` is the number of pixels still to visit (`data.length / 4` at entry). -/
def embedPixelLoop (bits : List Nat) : Nat → Nat → Nat → List Nat → List Nat
  | 0, _, _, data => data
  | fuel + 1, p, bi, data =>
    if bits.length ≤ (embedChanLoop bits p 3 0 bi data).2 then
      (embedChanLoop bits p 3 0 bi data).1
    else
      embedPixelLoop bits fuel (p + 1) (embedChanLoop bits p 3 0 bi data).2
        (embedChanLoop bits p 3 0 bi data).1

/-- The whole embedding pass of `encodeMessage` over the pixel buffer. -/
def embedBits (data bits : List Nat) : List Nat :=
  embedPixelLoop bits (data.length / 4) 0 0 data

/-- The rejection message of line 55. -/
def capacityError : String := "Message is too large for this image"

/-- `encodeMessage` (lines 38-81), after the canvas has produced the RGBA
buffer `data` of the `width × height` image: frame the message, reject it
when the framed bit length exceeds `width * height * 3` (lines 49-57),
otherwise embed the bits into the channel LSBs. -/
def encodeMessage (width height : Nat) (data message : List Nat) : Except String (List Nat) :=
  if (frameBits message).length > width * height * 3 then Except.error capacityError
  else Except.ok (embedBits data (frameBits message))

/-- `parseInt(byte, 2)` on an 8-character binary string: MSB-first value. -/
def bitsVal (l : List Nat) : Nat := l.foldl (fun a b => a * 2 + b) 0

/-- `extractTextFromBinary` (lines 167-179): split the bit string into
consecutive groups of 8, turn each complete group into a character code,
and drop a trailing incomplete group. -/
def extractTextFromBinary : List Nat → List Nat
  | b0 :: b1 :: b2 :: b3 :: b4 :: b5 :: b6 :: b7 :: rest =>
      bitsVal [b0, b1, b2, b3, b4, b5, b6, b7] :: extractTextFromBinary rest
  | _ => []

/-- Whether `pat` is an initial segment of `text` (character-exact match,
as JS `indexOf` tests at one position). -/
def listStartsWith : List Nat → List Nat → Bool
  | [], _ => true
  | _ :: _, [] => false
  | p :: ps, t :: ts => p == t && listStartsWith ps ts

/-- JS `text.indexOf(pat)`: index of the first occurrence of `pat` in
`text`, or `none` (`includes` is `isSome` of this). -/
def indexOfSub (pat : List Nat) : List Nat → Option Nat
  | [] => if listStartsWith pat [] then some 0 else none
  | t :: ts =>
    if listStartsWith pat (t :: ts) then some 0
    else (indexOfSub pat ts).map (· + 1)

/-- The marker search of `decodeMessage` (lines 137-149): find the first
`<<START>>` and the first `<<END>>` anywhere in the text; if
`endIndex > startIndex + 9` return `substring (startIndex + 9) endIndex`,
otherwise report nothing found. -/
def unframeText (text : List Nat) : Option (List Nat) :=
  match indexOfSub startMarker text, indexOfSub endMarker text with
  | some s, some e =>
    if e > s + 9 then some ((text.drop (s + 9)).take (e - (s + 9))) else none
  | _, _ => none

/-- The per-bit marker check of `decodeMessage` (lines 132-150): only at a
byte boundary with at least 9 accumulated bytes, decode the accumulated
bits and run the marker search. -/
def tryDecodeAt (bits : List Nat) : Option (List Nat) :=
  if bits.length % 8 = 0 ∧ 8 * 9 ≤ bits.length then
    unframeText (extractTextFromBinary bits)
  else none

/-- The LSB read order of `decodeMessage` (lines 124-129): for each visited
pixel, the LSBs of its R, G, B bytes; `fuel` pixels starting at pixel `p`. -/
def lsbStreamAux (data : List Nat) : Nat → Nat → List Nat
  | 0, _ => []
  | fuel + 1, p =>
    (data.getD (p * 4) 0 &&& 1) :: (data.getD (p * 4 + 1) 0 &&& 1) ::
      (data.getD (p * 4 + 2) 0 &&& 1) :: lsbStreamAux data fuel (p + 1)

/-- All LSBs `decodeMessage` can ever visit:
`maxPixels = Math.min(data.length / 4, 100000)` (line 122). -/
def lsbStream (data : List Nat) : List Nat :=
  lsbStreamAux data (min (data.length / 4) 100000) 0

/-- The scanning loop of `decodeMessage`: append each extracted bit to the
accumulated `binaryMessage`, return at the first successful marker match,
`none` when the bit stream is exhausted. -/
def decodeLoop : List Nat → List Nat → Option (List Nat)
  | _, [] => none
  | acc, b :: rest =>
    match tryDecodeAt (acc ++ [b]) with
    | some message => some message
    | none => decodeLoop (acc ++ [b]) rest

/-- `decodeMessage` (lines 99-160) after the canvas has produced the RGBA
buffer: scan the channel LSBs in pixel order and report the first framed
message, or `none`. -/
def decodeMessage (data : List Nat) : Option (List Nat) :=
  decodeLoop [] (lsbStream data)

/-- MSB-first bits of a byte value `b < 256`, written positionally; used to
state the spec's version of the character conversion. -/
def byteBits (b : Nat) : List Nat :=
  [b / 128 % 2, b / 64 % 2, b / 32 % 2, b / 16 % 2, b / 8 % 2, b / 4 % 2, b / 2 % 2, b % 2]

/-- The character conversion in the words of the spec (§4.1, §6): exactly
one byte per character, equal to the code point modulo 256, expanded
MSB-first into exactly 8 bits. -/
def charBitsSpec (c : Nat) : List Nat := byteBits (c % 256)

/-- The framing contract in the words of the spec: sentinel-wrapped text,
each character one byte mod 256, 8 bits MSB-first, in character order. -/
def frameBitsSpec (message : List Nat) : List Nat := (frameCodes message).flatMap charBitsSpec

/-- The unframe contract in the words of claim C5: the first occurrence of
`<<START>>` and, after it, the first occurrence of `<<END>>`; when both are
found the substring strictly between them is returned. -/
def unframeClaim (text : List Nat) : Option (List Nat) :=
  match indexOfSub startMarker text with
  | none => none
  | some s =>
    match indexOfSub endMarker (text.drop (s + 9)) with
    | none => none
    | some k => some ((text.drop (s + 9)).take k)

/-- `i` is the index of the first occurrence of `pat` in `text`. -/
def isFirstOcc (pat text : List Nat) (i : Nat) : Prop :=
  listStartsWith pat (text.drop i) = true ∧ ∀ j < i, listStartsWith pat (text.drop j) = false

/-! ## Basic list-access lemmas -/

theorem getD_set_self (l : List Nat) (i v : Nat) (h : i < l.length) :
    (l.set i v).getD i 0 = v := by
  rw [List.getD_eq_getElem?_getD, List.getElem?_set_self h]
  rfl

theorem getD_set_other (l : List Nat) (i j v : Nat) (h : i ≠ j ∨ l.length ≤ i) :
    (l.set i v).getD j 0 = l.getD j 0 := by
  rcases h with h | h
  · rw [List.getD_eq_getElem?_getD, List.getElem?_set_ne h, List.getD_eq_getElem?_getD]
  · rw [List.set_eq_of_length_le h]

theorem length_setLsb (l : List Nat) (i b : Nat) : (setLsb l i b).length = l.length := by
  simp [setLsb]

theorem setLsb_getD_same (l : List Nat) (i b : Nat) (h : i < l.length) :
    (setLsb l i b).getD i 0 = (l.getD i 0 &&& 254) ||| b := by
  unfold setLsb
  exact getD_set_self _ _ _ h

theorem setLsb_getD_other (l : List Nat) (i j b : Nat) (h : i ≠ j ∨ l.length ≤ i) :
    (setLsb l i b).getD j 0 = l.getD j 0 := getD_set_other _ _ _ _ h

/-! ## Bit-level facts -/

/-- Writing a bit into the cleared LSB of any value reads back as that bit. -/
theorem lsb_write_read (x b : Nat) (hb : b < 2) : ((x &&& 254) ||| b) &&& 1 = b := by
  apply Nat.eq_of_testBit_eq
  intro k
  match k with
  | 0 =>
    interval_cases b <;>
      simp [Nat.testBit_or, Nat.testBit_and]
  | k + 1 =>
    interval_cases b <;>
      simp [Nat.testBit_or, Nat.testBit_and, Nat.testBit_succ]

set_option maxRecDepth 4000 in
/-- For byte values, the LSB write leaves all higher bits unchanged. -/
theorem lsb_write_div2 : ∀ x < 256, ∀ b < 2, ((x &&& 254) ||| b) / 2 = x / 2 := by decide

/-! ## Substring-search lemmas -/

theorem listStartsWith_length (p : List Nat) :
    ∀ t, listStartsWith p t = true → p.length ≤ t.length := by
  induction p with
  | nil => simp
  | cons a ps ih =>
    intro t h
    cases t with
    | nil => simp [listStartsWith] at h
    | cons b ts =>
      simp only [listStartsWith, Bool.and_eq_true] at h
      simpa using ih ts h.2

theorem listStartsWith_drop (k : Nat) :
    ∀ p t : List Nat, listStartsWith p t = true →
      listStartsWith (p.drop k) (t.drop k) = true := by
  induction k with
  | zero => exact fun p t h => h
  | succ k ih =>
    intro p t h
    cases p with
    | nil => simp [listStartsWith]
    | cons a ps =>
      cases t with
      | nil => simp [listStartsWith] at h
      | cons b ts =>
        simp only [listStartsWith, Bool.and_eq_true] at h
        simpa using ih ps ts h.2

theorem listStartsWith_append_of_le (p : List Nat) :
    ∀ a b : List Nat, listStartsWith p (a ++ b) = true → p.length ≤ a.length →
      listStartsWith p a = true := by
  induction p with
  | nil => simp [listStartsWith]
  | cons x ps ih =>
    intro a b h hl
    cases a with
    | nil => simp at hl
    | cons y as =>
      simp only [List.cons_append, listStartsWith, Bool.and_eq_true] at h ⊢
      exact ⟨h.1, ih as b h.2 (by simpa using hl)⟩

theorem listStartsWith_self_append (p b : List Nat) : listStartsWith p (p ++ b) = true := by
  induction p with
  | nil => simp [listStartsWith]
  | cons x ps ih => simp [listStartsWith, ih]

theorem listStartsWith_take (p : List Nat) :
    ∀ (s : Nat) (t : List Nat), listStartsWith p (t.take s) = true →
      listStartsWith p t = true := by
  induction p with
  | nil => simp [listStartsWith]
  | cons x ps ih =>
    intro s t h
    cases s with
    | zero => simp [listStartsWith] at h
    | succ s =>
      cases t with
      | nil => simp [listStartsWith] at h
      | cons b ts =>
        simp only [List.take_succ_cons, listStartsWith, Bool.and_eq_true] at h ⊢
        exact ⟨h.1, ih s ts h.2⟩

theorem indexOfSub_eq_some_iff (p : List Nat) :
    ∀ (t : List Nat) (i : Nat), indexOfSub p t = some i ↔ isFirstOcc p t i := by
  intro t
  induction t with
  | nil =>
    intro i
    unfold indexOfSub isFirstOcc
    simp only [List.drop_nil]
    by_cases hp : listStartsWith p [] = true
    · rw [if_pos hp]
      constructor
      · intro h
        obtain rfl : (0 : Nat) = i := by simpa using h
        exact ⟨hp, fun j hj => absurd hj (Nat.not_lt_zero j)⟩
      · rintro ⟨-, h2⟩
        rcases Nat.eq_zero_or_pos i with rfl | hi
        · rfl
        · exact absurd hp (by simpa using h2 0 hi)
    · rw [if_neg hp]
      constructor
      · intro h; cases h
      · rintro ⟨h1, -⟩; exact absurd h1 hp
  | cons a ts ih =>
    intro i
    unfold indexOfSub isFirstOcc
    by_cases hp : listStartsWith p (a :: ts) = true
    · rw [if_pos hp]
      constructor
      · intro h
        obtain rfl : (0 : Nat) = i := by simpa using h
        exact ⟨by simpa using hp, fun j hj => absurd hj (Nat.not_lt_zero j)⟩
      · rintro ⟨-, h2⟩
        rcases Nat.eq_zero_or_pos i with rfl | hi
        · rfl
        · exact absurd hp (by simpa using h2 0 hi)
    · rw [if_neg hp]
      constructor
      · intro h
        obtain ⟨i', hi', rfl⟩ := Option.map_eq_some'.mp h
        obtain ⟨h1, h2⟩ := (ih i').mp hi'
        refine ⟨by simpa using h1, fun j hj => ?_⟩
        cases j with
        | zero => simpa using hp
        | succ j => simpa using h2 j (by omega)
      · rintro ⟨h1, h2⟩
        cases i with
        | zero => exact absurd (by simpa using h1) hp
        | succ i =>
          have hoc : isFirstOcc p ts i :=
            ⟨by simpa using h1, fun j hj => by simpa using h2 (j + 1) (by omega)⟩
          rw [(ih i).mpr hoc]
          rfl

theorem indexOfSub_eq_none_iff (p : List Nat) (hp : p ≠ []) :
    ∀ t : List Nat, indexOfSub p t = none ↔ ∀ i, listStartsWith p (t.drop i) = false := by
  have hnil : listStartsWith p [] = false := by
    cases p with
    | nil => exact absurd rfl hp
    | cons x ps => rfl
  intro t
  induction t with
  | nil =>
    unfold indexOfSub
    simp [hnil]
  | cons a ts ih =>
    unfold indexOfSub
    by_cases h : listStartsWith p (a :: ts) = true
    · rw [if_pos h]
      constructor
      · intro hc; cases hc
      · intro hall
        exact absurd h (by simpa using hall 0)
    · rw [if_neg h]
      constructor
      · intro hc i
        have hts := ih.mp (by simpa using hc)
        cases i with
        | zero => simpa using h
        | succ i => simpa using hts i
      · intro hall
        have : indexOfSub p ts = none := ih.mpr fun i => by simpa using hall (i + 1)
        simp [this]

theorem indexOfSub_of_startsWith (p t : List Nat) (hp : p ≠ [])
    (h : listStartsWith p t = true) : indexOfSub p t = some 0 := by
  cases t with
  | nil =>
    cases p with
    | nil => exact absurd rfl hp
    | cons x ps => simp [listStartsWith] at h
  | cons a ts =>
    unfold indexOfSub
    rw [if_pos h]

/-! ## Occurrences of the markers inside a framed message -/

/-- When the message contains no `<<END>>`, the framed text contains the end
marker at exactly one position: right after the message. -/
theorem endOcc_unique (message : List Nat) (hnoEnd : indexOfSub endMarker message = none) :
    ∀ i, listStartsWith endMarker ((frameCodes message).drop i) = true →
      i = 9 + message.length := by
  intro i h
  have hno : ∀ q, listStartsWith endMarker (message.drop q) = false :=
    (indexOfSub_eq_none_iff endMarker (by decide) message).mp hnoEnd
  by_cases hi : i ≤ 8
  · exfalso
    unfold frameCodes startMarker at h
    interval_cases i <;> simp [endMarker, listStartsWith] at h
  · obtain ⟨q, rfl⟩ : ∃ q, i = 9 + q := ⟨i - 9, by omega⟩
    have hdrop : (frameCodes message).drop (9 + q) = (message ++ endMarker).drop q := by
      unfold frameCodes
      rw [List.append_assoc, List.drop_append_eq_append_drop,
        List.drop_eq_nil_of_le (show startMarker.length ≤ 9 + q by simp [startMarker])]
      simp [startMarker]
    rw [hdrop] at h
    rcases Nat.lt_or_ge q message.length with hq | hq
    · have hsplit : (message ++ endMarker).drop q = message.drop q ++ endMarker := by
        rw [List.drop_append_eq_append_drop]
        have h0 : q - message.length = 0 := by omega
        rw [h0, List.drop_zero]
      rw [hsplit] at h
      by_cases h7 : 7 ≤ message.length - q
      · have hin : listStartsWith endMarker (message.drop q) = true :=
          listStartsWith_append_of_le _ _ _ h (by simp [endMarker]; omega)
        rw [hno q] at hin
        cases hin
      · exfalso
        have h2 := listStartsWith_drop (message.length - q) _ _ h
        have h3 : (message.drop q ++ endMarker).drop (message.length - q) = endMarker := by
          rw [List.drop_append_eq_append_drop,
            List.drop_eq_nil_of_le (show (message.drop q).length ≤ message.length - q by simp)]
          simp
        rw [h3] at h2
        obtain ⟨l, hl, hl1, hl6⟩ : ∃ l, message.length - q = l ∧ 1 ≤ l ∧ l ≤ 6 :=
          ⟨message.length - q, rfl, by omega, by omega⟩
        rw [hl] at h2
        interval_cases l <;> simp [endMarker, listStartsWith] at h2
    · have hq2 : q = message.length := by
        by_contra hne
        have hgt : message.length < q := by omega
        have hdrop2 : (message ++ endMarker).drop q = endMarker.drop (q - message.length) := by
          rw [List.drop_append_eq_append_drop, List.drop_eq_nil_of_le (by omega)]
          simp
        rw [hdrop2] at h
        have hlen := listStartsWith_length endMarker _ h
        simp [endMarker] at hlen
        omega
      omega

/-- The framed text does carry the end marker right after the message. -/
theorem endOcc_at (message : List Nat) :
    listStartsWith endMarker ((frameCodes message).drop (9 + message.length)) = true := by
  have hdrop : (frameCodes message).drop (9 + message.length) = endMarker := by
    unfold frameCodes
    rw [List.append_assoc, List.drop_append_eq_append_drop,
      List.drop_eq_nil_of_le (show startMarker.length ≤ 9 + message.length by simp [startMarker])]
    simp [startMarker]
  rw [hdrop]
  simpa using listStartsWith_self_append endMarker []

/-- In the framed text the first `<<END>>` sits right after the message. -/
theorem indexOfSub_end_frame (message : List Nat)
    (hnoEnd : indexOfSub endMarker message = none) :
    indexOfSub endMarker (frameCodes message) = some (9 + message.length) := by
  rw [indexOfSub_eq_some_iff]
  refine ⟨endOcc_at message, fun j hj => ?_⟩
  by_contra hx
  have hocc : listStartsWith endMarker ((frameCodes message).drop j) = true := by
    simpa using hx
  have := endOcc_unique message hnoEnd j hocc
  omega

/-- The framed text always begins with the start marker. -/
theorem indexOfSub_start_frame (message : List Nat) :
    indexOfSub startMarker (frameCodes message) = some 0 := by
  apply indexOfSub_of_startsWith _ _ (by decide)
  unfold frameCodes
  rw [List.append_assoc]
  exact listStartsWith_self_append startMarker (message ++ endMarker)

/-- Unframing the framed text of a nonempty message with no embedded
`<<END>>` recovers the message. -/
theorem unframe_frame (message : List Nat) (hne : message ≠ [])
    (hnoEnd : indexOfSub endMarker message = none) :
    unframeText (frameCodes message) = some message := by
  have hgt : 9 + message.length > 0 + 9 := by
    have : message.length ≠ 0 := fun h0 => hne (List.length_eq_zero.mp h0)
    omega
  have h9 : (frameCodes message).drop (0 + 9) = message ++ endMarker := by
    unfold frameCodes
    rw [List.append_assoc]
    exact List.drop_left' (by simp [startMarker])
  unfold unframeText
  rw [indexOfSub_start_frame, indexOfSub_end_frame message hnoEnd]
  change (if 9 + message.length > 0 + 9 then
    some (((frameCodes message).drop (0 + 9)).take (9 + message.length - (0 + 9)))
    else none) = some message
  rw [if_pos hgt, h9]
  have hk : 9 + message.length - (0 + 9) = message.length := by omega
  rw [hk, List.take_left]

/-- No proper prefix of the framed text contains `<<END>>` at all. -/
theorem indexOfSub_end_take (message : List Nat)
    (hnoEnd : indexOfSub endMarker message = none)
    (k : Nat) (hk : k < 16 + message.length) :
    indexOfSub endMarker ((frameCodes message).take k) = none := by
  rw [indexOfSub_eq_none_iff endMarker (by decide)]
  intro i
  by_contra hx
  have hocc : listStartsWith endMarker (((frameCodes message).take k).drop i) = true := by
    simpa using hx
  have hlen := listStartsWith_length endMarker _ hocc
  rw [List.drop_take] at hocc
  have h1 : listStartsWith endMarker ((frameCodes message).drop i) = true :=
    listStartsWith_take _ _ _ hocc
  have hi := endOcc_unique message hnoEnd i h1
  simp [endMarker, frameCodes, startMarker] at hlen
  omega

/-! ## Byte-level framing lemmas -/

set_option maxRecDepth 8000 in
/-- For byte-sized codes the source's `toString(2).padStart(8, "0")`
conversion agrees with the positional MSB-first 8-bit expansion. -/
theorem charBits_eq_byteBits : ∀ c < 256, charBits c = byteBits c := by decide

theorem charBits_length (c : Nat) (h : c < 256) : (charBits c).length = 8 := by
  rw [charBits_eq_byteBits c h]
  rfl

set_option maxRecDepth 8000 in
/-- Reassembling the 8 bits of a byte value gives the value back. -/
theorem bitsVal_byteBits : ∀ c < 256, bitsVal (byteBits c) = c := by decide

theorem flatMap_charBits_length (codes : List Nat) (h : ∀ c ∈ codes, c < 256) :
    (codes.flatMap charBits).length = 8 * codes.length := by
  induction codes with
  | nil => rfl
  | cons c cs ih =>
    rw [List.flatMap_cons, List.length_append,
      charBits_length c (h c (List.mem_cons_self c cs)),
      ih fun x hx => h x (List.mem_cons_of_mem c hx)]
    simp
    omega

theorem flatMap_charBits_take (codes : List Nat) (h : ∀ c ∈ codes, c < 256) :
    ∀ k : Nat, (codes.flatMap charBits).take (8 * k) = (codes.take k).flatMap charBits := by
  induction codes with
  | nil => simp
  | cons c cs ih =>
    intro k
    cases k with
    | zero => simp
    | succ k =>
      rw [List.flatMap_cons, List.take_succ_cons, List.flatMap_cons,
        List.take_append_eq_append_take,
        List.take_of_length_le (by rw [charBits_length c (h c (List.mem_cons_self c cs))]; omega),
        charBits_length c (h c (List.mem_cons_self c cs))]
      have hk : 8 * (k + 1) - 8 = 8 * k := by omega
      rw [hk, ih fun x hx => h x (List.mem_cons_of_mem c hx)]

theorem etb_flatMap (codes : List Nat) (h : ∀ c ∈ codes, c < 256) :
    extractTextFromBinary (codes.flatMap charBits) = codes := by
  induction codes with
  | nil => rfl
  | cons c cs ih =>
    have hc : c < 256 := h c (List.mem_cons_self c cs)
    rw [List.flatMap_cons, charBits_eq_byteBits c hc]
    show bitsVal (byteBits c) :: extractTextFromBinary (cs.flatMap charBits) = c :: cs
    rw [bitsVal_byteBits c hc, ih fun x hx => h x (List.mem_cons_of_mem c hx)]

theorem frameCodes_lt (message : List Nat) (h : ∀ c ∈ message, c < 256) :
    ∀ c ∈ frameCodes message, c < 256 := by
  intro c hc
  unfold frameCodes at hc
  rcases List.mem_append.mp hc with hc | hc
  · rcases List.mem_append.mp hc with hc | hc
    · exact (show ∀ x ∈ startMarker, x < 256 by decide) c hc
    · exact h c hc
  · exact (show ∀ x ∈ endMarker, x < 256 by decide) c hc

theorem frameBits_length (message : List Nat) (h : ∀ c ∈ message, c < 256) :
    (frameBits message).length = 8 * (16 + message.length) := by
  unfold frameBits
  rw [flatMap_charBits_length _ (frameCodes_lt message h)]
  simp [frameCodes, startMarker, endMarker]
  omega

theorem etb_frameBits_take (message : List Nat) (h : ∀ c ∈ message, c < 256) (k : Nat) :
    extractTextFromBinary ((frameBits message).take (8 * k)) = (frameCodes message).take k := by
  unfold frameBits
  rw [flatMap_charBits_take _ (frameCodes_lt message h) k]
  exact etb_flatMap _ fun x hx => frameCodes_lt message h x (List.take_subset k _ hx)

theorem etb_frameBits (message : List Nat) (h : ∀ c ∈ message, c < 256) :
    extractTextFromBinary (frameBits message) = frameCodes message :=
  etb_flatMap _ (frameCodes_lt message h)

/-! ## Characterization of the embedding loops -/

theorem chanLoop_break (bits : List Nat) (p bi : Nat) (data : List Nat)
    (h0 : ¬ bi < bits.length) :
    embedChanLoop bits p 3 0 bi data = (data, bi) := by
  simp [embedChanLoop, h0]

theorem chanLoop_one (bits : List Nat) (p bi : Nat) (data : List Nat)
    (h0 : bi < bits.length) (h1 : ¬ bi + 1 < bits.length) :
    embedChanLoop bits p 3 0 bi data = (setLsb data (p * 4) (bits.getD bi 0), bi + 1) := by
  simp [embedChanLoop, h0, h1]

theorem chanLoop_two (bits : List Nat) (p bi : Nat) (data : List Nat)
    (h1 : bi + 1 < bits.length) (h2 : ¬ bi + 2 < bits.length) :
    embedChanLoop bits p 3 0 bi data =
      (setLsb (setLsb data (p * 4) (bits.getD bi 0)) (p * 4 + 1) (bits.getD (bi + 1) 0),
        bi + 2) := by
  have h0 : bi < bits.length := by omega
  have h2' : ¬ bi + 1 + 1 < bits.length := by omega
  simp [embedChanLoop, h0, h1, h2']

theorem chanLoop_three (bits : List Nat) (p bi : Nat) (data : List Nat)
    (h2 : bi + 2 < bits.length) :
    embedChanLoop bits p 3 0 bi data =
      (setLsb (setLsb (setLsb data (p * 4) (bits.getD bi 0)) (p * 4 + 1)
        (bits.getD (bi + 1) 0)) (p * 4 + 2) (bits.getD (bi + 2) 0), bi + 3) := by
  have h0 : bi < bits.length := by omega
  have h1 : bi + 1 < bits.length := by omega
  have h2' : bi + 1 + 1 < bits.length := by omega
  simp [embedChanLoop, h0, h1, h2']

theorem chanLoop_length (bits : List Nat) (p : Nat) :
    ∀ (fuel c bi : Nat) (data : List Nat),
      (embedChanLoop bits p fuel c bi data).1.length = data.length := by
  intro fuel
  induction fuel with
  | zero => intro c bi data; rfl
  | succ fuel ih =>
    intro c bi data
    simp only [embedChanLoop]
    split
    · rw [ih]; exact length_setLsb data _ _
    · rfl

theorem pixelLoop_length (bits : List Nat) :
    ∀ (fuel p bi : Nat) (data : List Nat),
      (embedPixelLoop bits fuel p bi data).length = data.length := by
  intro fuel
  induction fuel with
  | zero => intro p bi data; rfl
  | succ fuel ih =>
    intro p bi data
    simp only [embedPixelLoop]
    split
    · exact chanLoop_length bits p 3 0 bi data
    · rw [ih]; exact chanLoop_length bits p 3 0 bi data

theorem embedBits_length (data bits : List Nat) : (embedBits data bits).length = data.length :=
  pixelLoop_length bits (data.length / 4) 0 0 data

theorem getD_d1 (data bits : List Nat) (p j : Nat) :
    (setLsb data (p * 4) (bits.getD (3 * p) 0)).getD j 0 =
      if j < data.length ∧ j / 4 = p ∧ j % 4 = 0 then
        (data.getD j 0 &&& 254) ||| bits.getD ((j / 4) * 3 + j % 4) 0
      else data.getD j 0 := by
  by_cases hc : j < data.length ∧ j / 4 = p ∧ j % 4 = 0
  · obtain ⟨h1, h2, h3⟩ := hc
    rw [if_pos ⟨h1, h2, h3⟩, show (j / 4) * 3 + j % 4 = 3 * p from by omega,
      show j = p * 4 from by omega]
    exact setLsb_getD_same data (p * 4) _ (by omega)
  · rw [if_neg hc]
    apply setLsb_getD_other
    by_cases hl : p * 4 < data.length
    · exact Or.inl fun he => hc ⟨by omega, by omega, by omega⟩
    · exact Or.inr (by omega)

theorem getD_d2 (data bits : List Nat) (p j : Nat) :
    (setLsb (setLsb data (p * 4) (bits.getD (3 * p) 0)) (p * 4 + 1)
        (bits.getD (3 * p + 1) 0)).getD j 0 =
      if j < data.length ∧ j / 4 = p ∧ j % 4 < 2 then
        (data.getD j 0 &&& 254) ||| bits.getD ((j / 4) * 3 + j % 4) 0
      else data.getD j 0 := by
  by_cases hc : j < data.length ∧ j / 4 = p ∧ j % 4 < 2
  · obtain ⟨h1, h2, h3⟩ := hc
    rcases (show j % 4 = 0 ∨ j % 4 = 1 from by omega) with h4 | h4
    · rw [if_pos ⟨h1, h2, h3⟩, show (j / 4) * 3 + j % 4 = 3 * p from by omega,
        setLsb_getD_other _ _ _ _ (Or.inl (by omega)),
        show j = p * 4 from by omega]
      exact setLsb_getD_same data (p * 4) _ (by omega)
    · rw [if_pos ⟨h1, h2, h3⟩, show (j / 4) * 3 + j % 4 = 3 * p + 1 from by omega,
        show j = p * 4 + 1 from by omega,
        setLsb_getD_same _ (p * 4 + 1) _ (by rw [length_setLsb]; omega),
        setLsb_getD_other _ _ _ _ (Or.inl (by omega))]
  · rw [if_neg hc]
    have ho : p * 4 + 1 ≠ j ∨ (setLsb data (p * 4) (bits.getD (3 * p) 0)).length ≤ p * 4 + 1 := by
      by_cases hl : p * 4 + 1 < data.length
      · exact Or.inl fun he => hc ⟨by omega, by omega, by omega⟩
      · exact Or.inr (by rw [length_setLsb]; omega)
    rw [setLsb_getD_other _ _ _ _ ho]
    have hi : p * 4 ≠ j ∨ data.length ≤ p * 4 := by
      by_cases hl : p * 4 < data.length
      · exact Or.inl fun he => hc ⟨by omega, by omega, by omega⟩
      · exact Or.inr (by omega)
    rw [setLsb_getD_other _ _ _ _ hi]

theorem getD_d3 (data bits : List Nat) (p j : Nat) :
    (setLsb (setLsb (setLsb data (p * 4) (bits.getD (3 * p) 0)) (p * 4 + 1)
        (bits.getD (3 * p + 1) 0)) (p * 4 + 2) (bits.getD (3 * p + 2) 0)).getD j 0 =
      if j < data.length ∧ j / 4 = p ∧ j % 4 < 3 then
        (data.getD j 0 &&& 254) ||| bits.getD ((j / 4) * 3 + j % 4) 0
      else data.getD j 0 := by
  by_cases hc : j < data.length ∧ j / 4 = p ∧ j % 4 < 3
  · obtain ⟨h1, h2, h3⟩ := hc
    rcases (show j % 4 = 0 ∨ j % 4 = 1 ∨ j % 4 = 2 from by omega) with h4 | h4 | h4
    · rw [if_pos ⟨h1, h2, h3⟩, show (j / 4) * 3 + j % 4 = 3 * p from by omega,
        setLsb_getD_other _ _ _ _ (Or.inl (by omega)),
        setLsb_getD_other _ _ _ _ (Or.inl (by omega)),
        show j = p * 4 from by omega]
      exact setLsb_getD_same data (p * 4) _ (by omega)
    · rw [if_pos ⟨h1, h2, h3⟩, show (j / 4) * 3 + j % 4 = 3 * p + 1 from by omega,
        setLsb_getD_other _ _ _ _ (Or.inl (by omega)),
        show j = p * 4 + 1 from by omega,
        setLsb_getD_same _ (p * 4 + 1) _ (by rw [length_setLsb]; omega),
        setLsb_getD_other _ _ _ _ (Or.inl (by omega))]
    · rw [if_pos ⟨h1, h2, h3⟩, show (j / 4) * 3 + j % 4 = 3 * p + 2 from by omega,
        show j = p * 4 + 2 from by omega,
        setLsb_getD_same _ (p * 4 + 2) _ (by rw [length_setLsb, length_setLsb]; omega),
        setLsb_getD_other _ _ _ _ (Or.inl (by omega)),
        setLsb_getD_other _ _ _ _ (Or.inl (by omega))]
  · rw [if_neg hc]
    have h3 : p * 4 + 2 ≠ j ∨
        (setLsb (setLsb data (p * 4) (bits.getD (3 * p) 0)) (p * 4 + 1)
          (bits.getD (3 * p + 1) 0)).length ≤ p * 4 + 2 := by
      by_cases hl : p * 4 + 2 < data.length
      · exact Or.inl fun he => hc ⟨by omega, by omega, by omega⟩
      · exact Or.inr (by rw [length_setLsb, length_setLsb]; omega)
    rw [setLsb_getD_other _ _ _ _ h3]
    have h2 : p * 4 + 1 ≠ j ∨ (setLsb data (p * 4) (bits.getD (3 * p) 0)).length ≤ p * 4 + 1 := by
      by_cases hl : p * 4 + 1 < data.length
      · exact Or.inl fun he => hc ⟨by omega, by omega, by omega⟩
      · exact Or.inr (by rw [length_setLsb]; omega)
    rw [setLsb_getD_other _ _ _ _ h2]
    have h1 : p * 4 ≠ j ∨ data.length ≤ p * 4 := by
      by_cases hl : p * 4 < data.length
      · exact Or.inl fun he => hc ⟨by omega, by omega, by omega⟩
      · exact Or.inr (by omega)
    rw [setLsb_getD_other _ _ _ _ h1]

/-- Elementwise description of the pixel loop: starting at pixel `p` with
bit cursor `3 * p`, it overwrites the LSB of exactly the in-range R/G/B
bytes whose bit position is below the message length. -/
theorem pixelLoop_getD (bits : List Nat) :
    ∀ (fuel p : Nat) (data : List Nat) (j : Nat),
      (embedPixelLoop bits fuel p (3 * p) data).getD j 0 =
        if j < data.length ∧ j % 4 < 3 ∧ p ≤ j / 4 ∧ j / 4 < p + fuel ∧
            (j / 4) * 3 + j % 4 < bits.length
        then (data.getD j 0 &&& 254) ||| bits.getD ((j / 4) * 3 + j % 4) 0
        else data.getD j 0 := by
  intro fuel
  induction fuel with
  | zero =>
    intro p data j
    rw [if_neg (by omega)]
    rfl
  | succ fuel ih =>
    intro p data j
    simp only [embedPixelLoop]
    by_cases hA : 3 * p + 2 < bits.length
    · rw [chanLoop_three bits p (3 * p) data hA]
      dsimp only
      by_cases hB : bits.length ≤ 3 * p + 3
      · rw [if_pos hB, getD_d3]
        split_ifs <;> first | rfl | omega
      · rw [if_neg hB, show (3 : Nat) * p + 3 = 3 * (p + 1) from by ring, ih (p + 1) _ j,
          getD_d3]
        simp only [length_setLsb]
        split_ifs <;> first | rfl | omega
    · by_cases hA1 : 3 * p + 1 < bits.length
      · rw [chanLoop_two bits p (3 * p) data hA1 (by omega)]
        dsimp only
        rw [if_pos (by omega), getD_d2]
        split_ifs <;> first | rfl | omega
      · by_cases hA2 : 3 * p < bits.length
        · rw [chanLoop_one bits p (3 * p) data hA2 (by omega)]
          dsimp only
          rw [if_pos (by omega), getD_d1]
          split_ifs <;> first | rfl | omega
        · rw [chanLoop_break bits p (3 * p) data hA2]
          dsimp only
          rw [if_pos (by omega), if_neg (by omega)]

/-- Elementwise description of the whole embedding pass. -/
theorem embedBits_getD (data bits : List Nat) (j : Nat) :
    (embedBits data bits).getD j 0 =
      if j < data.length ∧ j % 4 < 3 ∧ j / 4 < data.length / 4 ∧
          (j / 4) * 3 + j % 4 < bits.length
      then (data.getD j 0 &&& 254) ||| bits.getD ((j / 4) * 3 + j % 4) 0
      else data.getD j 0 := by
  have h0 : embedBits data bits = embedPixelLoop bits (data.length / 4) 0 (3 * 0) data := rfl
  rw [h0, pixelLoop_getD]
  split_ifs <;> first | rfl | omega

/-! ## Characterization of the extraction stream and scan loop -/

theorem getD_eq_getElem (l : List Nat) (i : Nat) (h : i < l.length) : l.getD i 0 = l[i] := by
  rw [List.getD_eq_getElem l 0 h]

theorem lsbStreamAux_length (data : List Nat) :
    ∀ fuel p, (lsbStreamAux data fuel p).length = 3 * fuel := by
  intro fuel
  induction fuel with
  | zero => intro p; rfl
  | succ fuel ih =>
    intro p
    simp only [lsbStreamAux, List.length_cons, ih]
    omega

theorem lsbStreamAux_getD (data : List Nat) :
    ∀ (fuel p i : Nat), i < 3 * fuel →
      (lsbStreamAux data fuel p).getD i 0 =
        data.getD ((p + i / 3) * 4 + i % 3) 0 &&& 1 := by
  intro fuel
  induction fuel with
  | zero => intro p i hi; omega
  | succ fuel ih =>
    intro p i hi
    by_cases h3 : i < 3
    · interval_cases i
      · show data.getD (p * 4) 0 &&& 1 = _
        norm_num
      · show data.getD (p * 4 + 1) 0 &&& 1 = _
        norm_num
      · show data.getD (p * 4 + 2) 0 &&& 1 = _
        norm_num
    · obtain ⟨i', rfl⟩ : ∃ i', i = i' + 3 := ⟨i - 3, by omega⟩
      show (lsbStreamAux data fuel (p + 1)).getD i' 0 = _
      rw [ih (p + 1) i' (by omega)]
      have harg : (p + 1 + i' / 3) * 4 + i' % 3 = (p + (i' + 3) / 3) * 4 + (i' + 3) % 3 := by
        omega
      rw [harg]

/-- Embedding then reading back the LSB stream returns the embedded bits. -/
theorem lsbStream_embed_take (data bits : List Nat)
    (hbits : ∀ b ∈ bits, b < 2)
    (hfit : bits.length ≤ 3 * min (data.length / 4) 100000) :
    (lsbStream (embedBits data bits)).take bits.length = bits := by
  have hlen1 : (lsbStream (embedBits data bits)).length = 3 * min (data.length / 4) 100000 := by
    unfold lsbStream
    rw [lsbStreamAux_length, embedBits_length]
  apply List.ext_getElem
  · rw [List.length_take, hlen1]
    omega
  intro i hi1 hi2
  have hiL : i < bits.length := hi2
  rw [List.getElem_take]
  rw [← getD_eq_getElem _ _ (by omega), ← getD_eq_getElem _ _ hiL]
  show (lsbStreamAux (embedBits data bits) (min ((embedBits data bits).length / 4) 100000) 0).getD
    i 0 = bits.getD i 0
  rw [embedBits_length, lsbStreamAux_getD _ _ _ _ (by omega), embedBits_getD]
  rw [if_pos ⟨by omega, by omega, by omega, by omega⟩]
  rw [show ((0 + i / 3) * 4 + i % 3) / 4 * 3 + ((0 + i / 3) * 4 + i % 3) % 4 = i from by omega]
  have hb : bits.getD i 0 < 2 := by
    rw [getD_eq_getElem _ _ hiL]
    exact hbits _ (List.getElem_mem hiL)
  exact lsb_write_read _ _ hb

theorem decodeLoop_eq_some (m : List Nat) :
    ∀ (rest acc : List Nat) (n : Nat), 1 ≤ n → n ≤ rest.length →
      tryDecodeAt (acc ++ rest.take n) = some m →
      (∀ k, 1 ≤ k → k < n → tryDecodeAt (acc ++ rest.take k) = none) →
      decodeLoop acc rest = some m := by
  intro rest
  induction rest with
  | nil =>
    intro acc n h1 h2 _ _
    simp at h2
    omega
  | cons b rest ih =>
    intro acc n h1 h2 hs hf
    by_cases hn : n = 1
    · subst hn
      have hb : tryDecodeAt (acc ++ [b]) = some m := by simpa using hs
      simp only [decodeLoop, hb]
    · have hfb : tryDecodeAt (acc ++ [b]) = none := by
        simpa using hf 1 (by omega) (by omega)
      simp only [decodeLoop, hfb]
      obtain ⟨n', rfl⟩ : ∃ n', n = n' + 1 := ⟨n - 1, by omega⟩
      apply ih (acc ++ [b]) n' (by omega) (by simpa using h2)
      · simpa [List.append_assoc] using hs
      · intro k hk1 hkn
        simpa [List.append_assoc] using hf (k + 1) (by omega) (by omega)

theorem decodeLoop_eq_none :
    ∀ (rest acc : List Nat),
      (∀ k, 1 ≤ k → k ≤ rest.length → tryDecodeAt (acc ++ rest.take k) = none) →
      decodeLoop acc rest = none := by
  intro rest
  induction rest with
  | nil => intro acc _; rfl
  | cons b rest ih =>
    intro acc h
    have hfb : tryDecodeAt (acc ++ [b]) = none := by
      simpa using h 1 (by omega) (by simp)
    simp only [decodeLoop, hfb]
    apply ih (acc ++ [b])
    intro k hk1 hk2
    simpa [List.append_assoc] using h (k + 1) (by omega) (by simp; omega)

/-- Any strict prefix of the framed bits fails the tentative decode: the
guard rejects it below 72 bits or off a byte boundary, and otherwise the
decoded text has no complete `<<END>>` yet. -/
theorem tryDecodeAt_frame_prefix (message : List Nat) (h : ∀ c ∈ message, c < 256)
    (hnoEnd : indexOfSub endMarker message = none) (k : Nat)
    (hk : k < (frameBits message).length) :
    tryDecodeAt ((frameBits message).take k) = none := by
  unfold tryDecodeAt
  by_cases hg : ((frameBits message).take k).length % 8 = 0 ∧
      8 * 9 ≤ ((frameBits message).take k).length
  · rw [if_pos hg]
    have hlenT : ((frameBits message).take k).length = k := by
      rw [List.length_take]
      omega
    obtain ⟨h8, h72⟩ := hg
    rw [hlenT] at h8 h72
    obtain ⟨kb, rfl⟩ : ∃ kb, k = 8 * kb := ⟨k / 8, by omega⟩
    rw [etb_frameBits_take message h kb]
    unfold unframeText
    rw [frameBits_length message h] at hk
    rw [indexOfSub_end_take message hnoEnd kb (by omega)]
    cases indexOfSub startMarker ((frameCodes message).take kb) <;> rfl
  · rw [if_neg hg]

/-- The full framed bit sequence decodes back to the message. -/
theorem tryDecodeAt_frame (message : List Nat) (h : ∀ c ∈ message, c < 256)
    (hne : message ≠ []) (hnoEnd : indexOfSub endMarker message = none) :
    tryDecodeAt (frameBits message) = some message := by
  unfold tryDecodeAt
  rw [if_pos (by rw [frameBits_length message h]; omega), etb_frameBits message h]
  exact unframe_frame message hne hnoEnd

theorem frameBits_lt_two (message : List Nat) (h : ∀ c ∈ message, c < 256) :
    ∀ b ∈ frameBits message, b < 2 := by
  intro b hb
  unfold frameBits at hb
  rw [List.mem_flatMap] at hb
  obtain ⟨c, hc, hbc⟩ := hb
  rw [charBits_eq_byteBits c (frameCodes_lt message h c hc)] at hbc
  unfold byteBits at hbc
  simp only [List.mem_cons, List.not_mem_nil, or_false] at hbc
  rcases hbc with h1 | h1 | h1 | h1 | h1 | h1 | h1 | h1 <;> omega

/-! ## Claim theorems -/

/-- C1 (amended): for a nonempty Latin-1 message that does not contain the
literal `<<END>>`, whose framed bit length fits both the capacity
`width * height * 3` and the extractor's 300000-bit scan ceiling, encoding
into the buffer succeeds and decoding the embedded buffer returns exactly
the original message. -/
theorem c1_round_trip (width height : Nat) (data message : List Nat)
    (hdata : data.length = width * height * 4)
    (hne : message ≠ [])
    (hcodes : ∀ c ∈ message, c < 256)
    (hnoEnd : indexOfSub endMarker message = none)
    (hcap : (frameBits message).length ≤ width * height * 3)
    (hceil : (frameBits message).length ≤ 300000) :
    encodeMessage width height data message = Except.ok (embedBits data (frameBits message)) ∧
    decodeMessage (embedBits data (frameBits message)) = some message := by
  have hfit : (frameBits message).length ≤ 3 * min (data.length / 4) 100000 := by
    rw [hdata]
    omega
  constructor
  · unfold encodeMessage
    rw [if_neg (by omega)]
  · unfold decodeMessage
    have hstream : (lsbStream (embedBits data (frameBits message))).take
        (frameBits message).length = frameBits message :=
      lsbStream_embed_take data _ (frameBits_lt_two message hcodes) hfit
    have hslen : (frameBits message).length ≤
        (lsbStream (embedBits data (frameBits message))).length := by
      unfold lsbStream
      rw [lsbStreamAux_length, embedBits_length]
      omega
    apply decodeLoop_eq_some message _ _ (frameBits message).length
    · rw [frameBits_length message hcodes]
      omega
    · exact hslen
    · rw [List.nil_append, hstream]
      exact tryDecodeAt_frame message hcodes hne hnoEnd
    · intro k hk1 hkn
      rw [List.nil_append]
      have htk : (lsbStream (embedBits data (frameBits message))).take k =
          (frameBits message).take k := by
        conv_rhs => rw [← hstream]
        rw [List.take_take, min_eq_left (by omega)]
      rw [htk]
      exact tryDecodeAt_frame_prefix message hcodes hnoEnd k hkn

/-- C1 counterexample: the empty message satisfies every hypothesis of the
claim (framed bit length 128 ≤ capacity 147 of a 7×7 image), encoding
succeeds, yet decoding the embedded buffer returns `none` rather than the
original message, because the decoder demands `endIndex > startIndex + 9`
and here they are equal. -/
theorem c1_cex :
    (frameBits ([] : List Nat)).length ≤ 7 * 7 * 3 ∧
    encodeMessage 7 7 (List.replicate 196 0) [] =
      Except.ok (embedBits (List.replicate 196 0) (frameBits [])) ∧
    decodeMessage (embedBits (List.replicate 196 0) (frameBits [])) ≠ some [] := by
  refine ⟨by decide, ?_, by decide⟩
  unfold encodeMessage
  rw [if_neg (by decide)]

/-- C1 witness: a concrete 7×7 buffer and the two-character message "Hi". -/
theorem c1_witness :
    encodeMessage 7 7 (List.replicate 196 9) [72, 105] =
      Except.ok (embedBits (List.replicate 196 9) (frameBits [72, 105])) ∧
    decodeMessage (embedBits (List.replicate 196 9) (frameBits [72, 105])) = some [72, 105] :=
  c1_round_trip 7 7 (List.replicate 196 9) [72, 105] (by decide) (by decide) (by decide)
    (by decide) (by decide) (by decide)

/-- C2 (amended): a framed message exactly filling capacity is accepted and
one bit over capacity is rejected; in a 10×10 image (capacity 300 bits) the
markers add 16 bytes, so the maximum ASCII payload is 21 characters: a
21-character message is accepted and a 22-character one rejected. -/
theorem c2_capacity_boundary :
    (∀ (width height : Nat) (data message : List Nat),
        (frameBits message).length = width * height * 3 →
        encodeMessage width height data message =
          Except.ok (embedBits data (frameBits message))) ∧
    (∀ (width height : Nat) (data message : List Nat),
        (frameBits message).length = width * height * 3 + 1 →
        encodeMessage width height data message = Except.error capacityError) ∧
    encodeMessage 10 10 (List.replicate 400 0) (List.replicate 21 65) =
      Except.ok (embedBits (List.replicate 400 0) (frameBits (List.replicate 21 65))) ∧
    encodeMessage 10 10 (List.replicate 400 0) (List.replicate 22 65) =
      Except.error capacityError := by
  refine ⟨?_, ?_, ?_, ?_⟩
  · intro width height data message he
    unfold encodeMessage
    rw [if_neg (by omega)]
  · intro width height data message he
    unfold encodeMessage
    rw [if_pos (by omega)]
  · unfold encodeMessage
    rw [if_neg (by decide)]
  · unfold encodeMessage
    rw [if_pos (by decide)]

/-- C2 counterexample: a 21-character ASCII message frames to
16 + 21 = 37 bytes = 296 bits ≤ 300, so the encoder accepts it where the
claim demands a `CapacityExceeded` failure (the markers add 16 bytes, not
17, and 300 bits hold 37.5 bytes). -/
theorem c2_cex :
    encodeMessage 10 10 (List.replicate 400 0) (List.replicate 21 65) ≠
      Except.error capacityError ∧
    (frameBits (List.replicate 21 65)).length = 296 := by
  constructor
  · unfold encodeMessage
    rw [if_neg (by decide)]
    simp
  · decide

/-- C2 witness: exact fill at 8×6 (capacity 144 = framed bits of "AA") and
one bit over at 9×5 (capacity 135, framed bits of "A" = 136). -/
theorem c2_witness :
    encodeMessage 8 6 (List.replicate 192 0) [65, 65] =
      Except.ok (embedBits (List.replicate 192 0) (frameBits [65, 65])) ∧
    encodeMessage 9 5 (List.replicate 180 0) [65] = Except.error capacityError :=
  ⟨c2_capacity_boundary.1 8 6 (List.replicate 192 0) [65, 65] (by decide),
   c2_capacity_boundary.2.1 9 5 (List.replicate 180 0) [65] (by decide)⟩

theorem flatMap_charBits_eq_spec (codes : List Nat) (h : ∀ c ∈ codes, c < 256) :
    codes.flatMap charBits = codes.flatMap charBitsSpec := by
  induction codes with
  | nil => rfl
  | cons c cs ih =>
    rw [List.flatMap_cons, List.flatMap_cons,
      charBits_eq_byteBits c (h c (List.mem_cons_self c cs)),
      ih fun x hx => h x (List.mem_cons_of_mem c hx)]
    congr 1
    unfold charBitsSpec
    rw [Nat.mod_eq_of_lt (h c (List.mem_cons_self c cs))]

/-- C3 (amended): for messages whose code units are all below 256, framing
emits exactly one byte per character of `<<START>> ++ message ++ <<END>>`,
equal to the character's code (= code mod 256), expanded MSB-first into
exactly 8 bits in character order; characters with larger codes violate
this (see the counterexample). -/
theorem c3_char_encoding (message : List Nat) (h : ∀ c ∈ message, c < 256) :
    frameBits message = frameBitsSpec message :=
  flatMap_charBits_eq_spec (frameCodes message) (frameCodes_lt message h)

/-- C3 counterexample: at character code 256 the source keeps all nine
binary digits of `(256).toString(2)` — `padStart` only pads, it never
truncates — so no byte-per-character correspondence holds: the framed bits
differ from the spec conversion and have length 137, not 136. -/
theorem c3_cex :
    frameBits [256] ≠ frameBitsSpec [256] ∧
    (frameBits [256]).length = 137 ∧ (charBits 256).length = 9 := by decide

/-- C3 witness: the one-character message "H". -/
theorem c3_witness : frameBits [72] = frameBitsSpec [72] :=
  c3_char_encoding [72] (by decide)

/-- C4 (amended): the framed bit sequence of any message whose code units
are all below 256 has length a multiple of 8; characters with larger codes
break the invariant. -/
theorem c4_framing_multiple_of_8 (message : List Nat) (h : ∀ c ∈ message, c < 256) :
    (frameBits message).length % 8 = 0 := by
  rw [frameBits_length message h]
  omega

/-- C4 counterexample: the message consisting of character code 256 frames
to 137 bits, which is not a multiple of 8. -/
theorem c4_cex :
    (frameBits [256]).length % 8 ≠ 0 ∧ (frameBits [256]).length % 8 = 1 := by decide

/-- C4 witness: the two-character message with codes 72 and 0. -/
theorem c4_witness : (frameBits [72, 0]).length % 8 = 0 :=
  c4_framing_multiple_of_8 [72, 0] (by decide)

/-- C5 (amended): the marker search finds the first occurrence of
`<<START>>` and the first occurrence of `<<END>>`, each searched from the
beginning of the text; when both exist and the end marker begins strictly
after the start marker ends (`e > s + 9`), the substring strictly between
the markers is returned, and otherwise not-found; matching is exact literal
substring match.  (The code does not search `<<END>>` only after
`<<START>>` — see the counterexample.) -/
theorem c5_unframe_semantics :
    (∀ (text : List Nat) (s e : Nat), isFirstOcc startMarker text s →
        isFirstOcc endMarker text e →
        unframeText text =
          if e > s + 9 then some ((text.drop (s + 9)).take (e - (s + 9))) else none) ∧
    (∀ text : List Nat, (∀ i, listStartsWith startMarker (text.drop i) = false) →
        unframeText text = none) ∧
    (∀ text : List Nat, (∀ i, listStartsWith endMarker (text.drop i) = false) →
        unframeText text = none) := by
  refine ⟨?_, ?_, ?_⟩
  · intro text s e hs he
    unfold unframeText
    rw [(indexOfSub_eq_some_iff startMarker text s).mpr hs,
      (indexOfSub_eq_some_iff endMarker text e).mpr he]
  · intro text hnone
    unfold unframeText
    rw [(indexOfSub_eq_none_iff startMarker (by decide) text).mpr hnone]
  · intro text hnone
    unfold unframeText
    rw [(indexOfSub_eq_none_iff endMarker (by decide) text).mpr hnone]
    cases indexOfSub startMarker text <;> rfl

/-- C5 counterexample: on `"<<END>>ab<<START>>cd<<END>>"` the claim's
reading (first `<<END>>` after the start marker) returns `"cd"`, but the
code finds `<<END>>` at index 0, fails `endIndex > startIndex + 9`, and
returns not-found. -/
theorem c5_cex :
    unframeText (endMarker ++ [97, 98] ++ startMarker ++ [99, 100] ++ endMarker) = none ∧
    unframeClaim (endMarker ++ [97, 98] ++ startMarker ++ [99, 100] ++ endMarker) =
      some [99, 100] := by decide

/-- C5 witness: the framed one-character text, with first occurrences at
0 and 10. -/
theorem c5_witness :
    unframeText (startMarker ++ [120] ++ endMarker) =
      if 10 > 0 + 9 then
        some (((startMarker ++ [120] ++ endMarker).drop (0 + 9)).take (10 - (0 + 9)))
      else none :=
  c5_unframe_semantics.1 (startMarker ++ [120] ++ endMarker) 0 10
    ⟨by decide, by decide⟩ ⟨by decide, by decide⟩

/-- C6: the capacity gate rejects exactly the messages whose framed bit
length exceeds `width * height * 3`, producing the capacity error and no
buffer at all (no truncated embedding); within capacity it embeds. -/
theorem c6_capacity_gate (width height : Nat) (data message : List Nat) :
    ((frameBits message).length > width * height * 3 →
      encodeMessage width height data message = Except.error capacityError) ∧
    ((frameBits message).length ≤ width * height * 3 →
      encodeMessage width height data message =
        Except.ok (embedBits data (frameBits message))) := by
  constructor
  · intro hgt
    unfold encodeMessage
    rw [if_pos hgt]
  · intro hle
    unfold encodeMessage
    rw [if_neg (by omega)]

/-- C6 witness: a 1×1 image rejects "A"; a 10×10 image embeds it. -/
theorem c6_witness :
    encodeMessage 1 1 [0, 0, 0, 0] [65] = Except.error capacityError ∧
    encodeMessage 10 10 (List.replicate 400 0) [65] =
      Except.ok (embedBits (List.replicate 400 0) (frameBits [65])) :=
  ⟨(c6_capacity_gate 1 1 [0, 0, 0, 0] [65]).1 (by decide),
   (c6_capacity_gate 10 10 (List.replicate 400 0) [65]).2 (by decide)⟩

/-- C7: for a fitting bit sequence, embedding preserves the buffer length,
never touches an alpha byte, leaves every channel byte at or beyond the
consumed bit prefix exactly unchanged, and changes at most the LSB of the
first `bits.length` R/G/B channel bytes in scan order (their high seven
bits survive, and their LSB becomes the corresponding bit). -/
theorem c7_embed_frame (data bits : List Nat)
    (hbytes : ∀ b ∈ data, b < 256) (hbits : ∀ b ∈ bits, b < 2)
    (hfit : bits.length ≤ data.length / 4 * 3) :
    (embedBits data bits).length = data.length ∧
    (∀ j, j < data.length → j % 4 = 3 →
      (embedBits data bits).getD j 0 = data.getD j 0) ∧
    (∀ j, j < data.length → bits.length ≤ j / 4 * 3 + j % 4 →
      (embedBits data bits).getD j 0 = data.getD j 0) ∧
    (∀ j, j < data.length → j % 4 < 3 → j / 4 * 3 + j % 4 < bits.length →
      (embedBits data bits).getD j 0 / 2 = data.getD j 0 / 2 ∧
      (embedBits data bits).getD j 0 &&& 1 = bits.getD (j / 4 * 3 + j % 4) 0) := by
  refine ⟨embedBits_length data bits, ?_, ?_, ?_⟩
  · intro j hj h4
    rw [embedBits_getD, if_neg (by omega)]
  · intro j hj hge
    rw [embedBits_getD, if_neg (by omega)]
  · intro j hj h4 hlt
    rw [embedBits_getD, if_pos ⟨hj, h4, by omega, hlt⟩]
    have hx : data.getD j 0 < 256 := by
      rw [getD_eq_getElem _ _ hj]
      exact hbytes _ (List.getElem_mem hj)
    have hb : bits.getD (j / 4 * 3 + j % 4) 0 < 2 := by
      rw [getD_eq_getElem _ _ hlt]
      exact hbits _ (List.getElem_mem hlt)
    exact ⟨lsb_write_div2 _ hx _ hb, lsb_write_read _ _ hb⟩

/-- C7 witness: a 2-pixel buffer and 4 bits; the alpha byte at index 3, the
untouched channel byte at index 5, and the written LSB at index 0. -/
theorem c7_witness :
    (embedBits [10, 20, 30, 40, 50, 60, 70, 80] [1, 0, 1, 1]).length =
      [10, 20, 30, 40, 50, 60, 70, 80].length ∧
    (embedBits [10, 20, 30, 40, 50, 60, 70, 80] [1, 0, 1, 1]).getD 3 0 =
      [10, 20, 30, 40, 50, 60, 70, 80].getD 3 0 ∧
    (embedBits [10, 20, 30, 40, 50, 60, 70, 80] [1, 0, 1, 1]).getD 5 0 =
      [10, 20, 30, 40, 50, 60, 70, 80].getD 5 0 ∧
    (embedBits [10, 20, 30, 40, 50, 60, 70, 80] [1, 0, 1, 1]).getD 0 0 &&& 1 =
      [1, 0, 1, 1].getD 0 0 := by
  have h := c7_embed_frame [10, 20, 30, 40, 50, 60, 70, 80] [1, 0, 1, 1]
    (by decide) (by decide) (by decide)
  exact ⟨h.1, h.2.1 3 (by decide) (by decide), h.2.2.1 5 (by decide) (by decide),
    (h.2.2.2 0 (by decide) (by decide) (by decide)).2⟩

theorem getD_take_lt (l : List Nat) (n i : Nat) (h : i < n) :
    (l.take n).getD i 0 = l.getD i 0 := by
  rw [List.getD_eq_getElem?_getD, List.getD_eq_getElem?_getD, List.getElem?_take, if_pos h]

theorem lsbStreamAux_take400000 (data : List Nat) :
    ∀ fuel p, p + fuel ≤ 100000 →
      lsbStreamAux (data.take 400000) fuel p = lsbStreamAux data fuel p := by
  intro fuel
  induction fuel with
  | zero => intro p _; rfl
  | succ fuel ih =>
    intro p h
    unfold lsbStreamAux
    rw [getD_take_lt _ _ _ (by omega), getD_take_lt _ _ _ (by omega),
      getD_take_lt _ _ _ (by omega), ih (p + 1) (by omega)]

/-- C8: extraction reads at most the first 100000 pixels — the result on
any buffer equals the result on its first 400000 bytes — and whenever no
prefix of the visited LSB stream passes the tentative decode (noise, no
embedded data, or a short buffer), it returns not-found rather than
failing. -/
theorem c8_extract_bound (data : List Nat) :
    decodeMessage data = decodeMessage (data.take 400000) ∧
    ((∀ n, n ≤ (lsbStream data).length → 1 ≤ n →
        tryDecodeAt ((lsbStream data).take n) = none) →
      decodeMessage data = none) := by
  constructor
  · have hstream : lsbStream (data.take 400000) = lsbStream data := by
      unfold lsbStream
      have hmin : (data.take 400000).length / 4 ⊓ 100000 = data.length / 4 ⊓ 100000 := by
        rw [List.length_take]
        omega
      rw [hmin]
      exact lsbStreamAux_take400000 data _ 0 (by omega)
    unfold decodeMessage
    rw [hstream]
  · intro hnone
    unfold decodeMessage
    apply decodeLoop_eq_none
    intro k hk1 hk2
    rw [List.nil_append]
    exact hnone k hk2 hk1

/-- C8 witness: a 5-byte buffer (one full pixel visited). -/
theorem c8_witness :
    decodeMessage [1, 2, 3, 4, 5] = decodeMessage ([1, 2, 3, 4, 5].take 400000) ∧
    decodeMessage [1, 2, 3, 4, 5] = none :=
  ⟨(c8_extract_bound [1, 2, 3, 4, 5]).1, (c8_extract_bound [1, 2, 3, 4, 5]).2 (by decide)⟩

/-- C9 (amended): for every nonempty message containing neither literal
sentinel, unframing the text-level frame returns exactly the message; the
empty message is the lone exception (see the counterexample). -/
theorem c9_idempotent_framing (message : List Nat)
    (_hnoStart : indexOfSub startMarker message = none)
    (hnoEnd : indexOfSub endMarker message = none)
    (hne : message ≠ []) :
    unframeText (startMarker ++ message ++ endMarker) = some message :=
  unframe_frame message hne hnoEnd

/-- C9 counterexample: the empty message contains neither sentinel, yet
unframing its framed text gives not-found instead of the empty message,
because the decoder requires `endIndex > startIndex + 9` and here
`endIndex = 9 = startIndex + 9`. -/
theorem c9_cex :
    indexOfSub startMarker [] = none ∧ indexOfSub endMarker [] = none ∧
    unframeText (startMarker ++ ([] : List Nat) ++ endMarker) ≠ some [] := by decide

/-- C9 witness: the two-character message "hi". -/
theorem c9_witness : unframeText (startMarker ++ [104, 105] ++ endMarker) = some [104, 105] :=
  c9_idempotent_framing [104, 105] (by decide) (by decide) (by decide)

/-- C10: a buffer of fewer than 24 pixels (fewer than 96 bytes) yields
fewer than 72 LSBs, so the tentative decode's 72-bit guard never passes and
extraction returns not-found regardless of the buffer's contents. -/
theorem c10_small_buffer (data : List Nat) (h : data.length < 96) :
    decodeMessage data = none := by
  have hlen : (lsbStream data).length ≤ 69 := by
    unfold lsbStream
    rw [lsbStreamAux_length]
    omega
  unfold decodeMessage
  apply decodeLoop_eq_none
  intro k hk1 hk2
  rw [List.nil_append]
  unfold tryDecodeAt
  rw [if_neg (by rw [List.length_take]; omega)]

/-- C10 witness: a 95-byte buffer of saturated bytes. -/
theorem c10_witness : decodeMessage (List.replicate 95 255) = none :=
  c10_small_buffer (List.replicate 95 255) (by decide)

end Stego
